import Mathlib

/-!
Verification of the airgap-formatter JSON engine against its specification.

The development shallowly embeds the three components of the engine:
the canonical formatter and minifier over the parsed value tree
(src/formatter.rs), the validating statistics collector (src/validator.rs)
and the lenient highlight tokenizer (src/highlighter.rs).

Conventions of the embedding:
- Rust `String` buffers built by sequential `push`/`push_str` calls are
  modelled as functional string concatenation in the same order.
- The index-based scanning loops of the highlighter are modelled as
  functions consuming the suffix of the character list that starts at the
  current index; the returned end index becomes the returned remaining
  suffix.
- `serde_json::Value::Number` is modelled as the decimal text that
  `n.to_string()` renders, since both the formatter and the minifier only
  ever re-emit that text.
-/

set_option maxRecDepth 8192

namespace AirgapFormatter

/-- Left curly bracket character, kept as a named constant. -/
def lbrace : Char := Char.ofNat 123

/-- Right curly bracket character, kept as a named constant. -/
def rbrace : Char := Char.ofNat 125

/-- The parsed JSON value tree (serde_json::Value as consumed by
formatter.rs and validator.rs).  Objects are the iteration sequence of
serde_json's map: a list of key/value entries.  Numbers are stored as the
decimal text that `n.to_string()` renders. -/
inductive Value where
  | null
  | bool (b : Bool)
  | num (s : String)
  | str (s : String)
  | arr (items : List Value)
  | obj (entries : List (String × Value))

/-- IndentStyle from types.rs (`Spaces(u8)` or `Tabs`; the u8 payload is
modelled as Nat). -/
inductive IndentStyle where
  | spaces (n : Nat)
  | tabs

/-- IndentStyle::as_str from types.rs. -/
def IndentStyle.asStr : IndentStyle → String
  | .spaces n => String.mk (List.replicate n ' ')
  | .tabs => "\t"

/-- Lowercase hexadecimal digit, as produced by Rust's `{:x}` formatting. -/
def hexDigit (n : Nat) : Char :=
  if n < 10 then Char.ofNat (48 + n) else Char.ofNat (87 + n)

/-- Four lowercase hexadecimal digits: Rust's `{:04x}` for values below
0x10000. -/
def toHex4 (n : Nat) : String :=
  String.mk [hexDigit (n / 4096 % 16), hexDigit (n / 256 % 16),
    hexDigit (n / 16 % 16), hexDigit (n % 16)]

/-- Rust's `char::is_control`: the Unicode Cc category, i.e. code points
below 0x20 together with 0x7F through 0x9F. -/
def rustIsControl (c : Char) : Bool :=
  decide (c.toNat < 0x20) || (decide (0x7f ≤ c.toNat) && decide (c.toNat ≤ 0x9f))

/-- The per-character escaping of the String arm of format_value
(formatter.rs lines 53-69). -/
def escapeChar (c : Char) : String :=
  if c == '"' then "\\\""
  else if c == '\\' then "\\\\"
  else if c == '\n' then "\\n"
  else if c == '\r' then "\\r"
  else if c == '\t' then "\\t"
  else if rustIsControl c then "\\u" ++ toHex4 c.toNat
  else String.singleton c

/-- The character loop of the String arm of format_value: each character's
escape is appended to the output buffer in order. -/
def escapeString (s : String) : String :=
  s.data.foldl (fun acc c => acc ++ escapeChar c) ""

/-- push_indent from formatter.rs: the indent string repeated depth
times. -/
def pushIndent (indentStr : String) : Nat → String
  | 0 => ""
  | d + 1 => pushIndent indentStr d ++ indentStr

mutual

/-- format_value from formatter.rs. -/
def formatValue : Value → String → Nat → String
  | .null, _, _ => "null"
  | .bool b, _, _ => if b then "true" else "false"
  | .num s, _, _ => s
  | .str s, _, _ => "\"" ++ escapeString s ++ "\""
  | .arr [], _, _ => "[]"
  | .arr (v :: vs), indentStr, depth =>
      "[\n" ++ formatItems (v :: vs) indentStr (depth + 1)
        ++ pushIndent indentStr depth ++ "]"
  | .obj [], _, _ => "\x7b\x7d"
  | .obj (e :: es), indentStr, depth =>
      "\x7b\n" ++ formatEntries (e :: es) indentStr (depth + 1)
        ++ pushIndent indentStr depth ++ "\x7d"

/-- The array item loop of format_value: indent each item at the child
depth, separate by a comma except after the last and end every line with a
newline. -/
def formatItems : List Value → String → Nat → String
  | [], _, _ => ""
  | [v], indentStr, depth =>
      pushIndent indentStr depth ++ formatValue v indentStr depth ++ "\n"
  | v :: v2 :: vs, indentStr, depth =>
      pushIndent indentStr depth ++ formatValue v indentStr depth ++ ",\n"
        ++ formatItems (v2 :: vs) indentStr depth

/-- The object entry loop of format_value: note that the key is emitted
verbatim between quotes, without any escaping. -/
def formatEntries : List (String × Value) → String → Nat → String
  | [], _, _ => ""
  | [(k, v)], indentStr, depth =>
      pushIndent indentStr depth ++ "\"" ++ k ++ "\": "
        ++ formatValue v indentStr depth ++ "\n"
  | (k, v) :: e2 :: es, indentStr, depth =>
      pushIndent indentStr depth ++ "\"" ++ k ++ "\": "
        ++ formatValue v indentStr depth ++ ",\n"
        ++ formatEntries (e2 :: es) indentStr depth

end

/-- format_json from formatter.rs after the parse step succeeded: render
the parsed tree at depth 0 with the chosen indent string. -/
def formatJsonValue (v : Value) (indent : IndentStyle) : String :=
  formatValue v indent.asStr 0

/-- Strict code-point lexicographic order on character lists, i.e. the
order by which Rust compares Strings (byte order on UTF-8 agrees with
code-point order). -/
def charsLtb : List Char → List Char → Bool
  | [], [] => false
  | [], _ :: _ => true
  | _ :: _, [] => false
  | a :: as, b :: bs => if a < b then true else if b < a then false else charsLtb as bs

/-- Strict code-point lexicographic order on Strings. -/
def strLtb (a b : String) : Bool := charsLtb a.data b.data

/-- Modelled from the spec: the grammar parser is an external collaborator
that returns Objects as ordered maps (serde_json's BTreeMap with its
default ordered map).  Inserting a key keeps the entry list strictly
sorted in ascending code-point order of the keys; inserting an existing
key replaces its value. -/
def btreeInsert : List (String × Value) → String → Value → List (String × Value)
  | [], k, v => [(k, v)]
  | (k', v') :: rest, k, v =>
    if strLtb k k' then (k, v) :: (k', v') :: rest
    else if strLtb k' k then (k', v') :: btreeInsert rest k v
    else (k, v) :: rest

/-- Modelled from the spec: building an Object's map by inserting the
key/value pairs in the order they appeared in the source text. -/
def mkObject (ps : List (String × Value)) : List (String × Value) :=
  ps.foldl (fun acc p => btreeInsert acc p.1 p.2) []

/-! ### Validator (validator.rs) -/

/-- JsonStats from types.rs. -/
structure JsonStats where
  object_count : Nat
  array_count : Nat
  string_count : Nat
  number_count : Nat
  boolean_count : Nat
  null_count : Nat
  max_depth : Nat
  total_keys : Nat

/-- JsonStats::default: all counters zero. -/
def defaultStats : JsonStats := ⟨0, 0, 0, 0, 0, 0, 0, 0⟩

mutual

/-- collect_stats from validator.rs. -/
def collectStats : Value → Nat → JsonStats → JsonStats
  | v, depth, stats0 =>
    let stats := { stats0 with max_depth := max stats0.max_depth depth }
    match v with
    | .obj entries =>
        collectStatsEntries entries (depth + 1)
          { stats with object_count := stats.object_count + 1,
                       total_keys := stats.total_keys + entries.length }
    | .arr items =>
        collectStatsItems items (depth + 1)
          { stats with array_count := stats.array_count + 1 }
    | .str _ => { stats with string_count := stats.string_count + 1 }
    | .num _ => { stats with number_count := stats.number_count + 1 }
    | .bool _ => { stats with boolean_count := stats.boolean_count + 1 }
    | .null => { stats with null_count := stats.null_count + 1 }

/-- The child loop of collect_stats over array elements. -/
def collectStatsItems : List Value → Nat → JsonStats → JsonStats
  | [], _, stats => stats
  | v :: vs, depth, stats => collectStatsItems vs depth (collectStats v depth stats)

/-- The child loop of collect_stats over object values. -/
def collectStatsEntries : List (String × Value) → Nat → JsonStats → JsonStats
  | [], _, stats => stats
  | e :: es, depth, stats => collectStatsEntries es depth (collectStats e.2 depth stats)

end

/-- validate_json from validator.rs after a successful parse: statistics
collected over the tree starting from depth 0 and the default stats. -/
def validateStats (v : Value) : JsonStats := collectStats v 0 defaultStats

mutual

/-- The total number of Value nodes in a tree (the quantity the spec's
count-conservation property talks about). -/
def nodeCount : Value → Nat
  | .null => 1
  | .bool _ => 1
  | .num _ => 1
  | .str _ => 1
  | .arr items => 1 + nodeCountItems items
  | .obj entries => 1 + nodeCountEntries entries

/-- nodeCount over array items. -/
def nodeCountItems : List Value → Nat
  | [] => 0
  | v :: vs => nodeCount v + nodeCountItems vs

/-- nodeCount over object entries. -/
def nodeCountEntries : List (String × Value) → Nat
  | [] => 0
  | e :: es => nodeCount e.2 + nodeCountEntries es

end

/-- The sum of the six per-kind counters of JsonStats. -/
def sumCounts (s : JsonStats) : Nat :=
  s.object_count + s.array_count + s.string_count + s.number_count
    + s.boolean_count + s.null_count

/-! ### Minifier (formatter.rs, minify_json)

minify_json parses the input and then delegates to the external
collaborator `serde_json::to_string`.  That serializer is modelled below
from serde_json's documented compact behaviour: entries separated by a
single comma, key and value separated by a single colon, strings escaped
with the two-character forms for quote, backslash, backspace, tab,
newline, form feed and carriage return, every other code point below 0x20
as a lowercase `\u00XX` sequence, and everything at or above 0x20 emitted
verbatim. -/

/-- Per-character escaping of serde_json's compact string serializer. -/
def serdeEscapeChar (c : Char) : String :=
  if c == '"' then "\\\""
  else if c == '\\' then "\\\\"
  else if c.toNat < 0x20 then
    if c == Char.ofNat 0x08 then "\\b"
    else if c == '\t' then "\\t"
    else if c == '\n' then "\\n"
    else if c == Char.ofNat 0x0c then "\\f"
    else if c == '\r' then "\\r"
    else "\\u00" ++ String.mk [hexDigit (c.toNat / 16), hexDigit (c.toNat % 16)]
  else String.singleton c

/-- serde_json's string escaping applied to every character. -/
def serdeEscapeString (s : String) : String :=
  s.data.foldl (fun acc c => acc ++ serdeEscapeChar c) ""

mutual

/-- minify_json from formatter.rs after the parse step: the compact
rendering produced by serde_json::to_string on the parsed tree. -/
def minifyRender : Value → String
  | .null => "null"
  | .bool b => if b then "true" else "false"
  | .num s => s
  | .str s => "\"" ++ serdeEscapeString s ++ "\""
  | .arr [] => "[]"
  | .arr (v :: vs) => "[" ++ minifyItems (v :: vs) ++ "]"
  | .obj [] => "\x7b\x7d"
  | .obj (e :: es) => "\x7b" ++ minifyEntries (e :: es) ++ "\x7d"

/-- Comma-separated compact rendering of array items. -/
def minifyItems : List Value → String
  | [] => ""
  | [v] => minifyRender v
  | v :: v2 :: vs => minifyRender v ++ "," ++ minifyItems (v2 :: vs)

/-- Comma-separated compact rendering of object entries; serde_json
escapes the key like any string. -/
def minifyEntries : List (String × Value) → String
  | [] => ""
  | [(k, v)] => "\"" ++ serdeEscapeString k ++ "\":" ++ minifyRender v
  | (k, v) :: e2 :: es =>
      "\"" ++ serdeEscapeString k ++ "\":" ++ minifyRender v ++ ","
        ++ minifyEntries (e2 :: es)

end

mutual

/-- The rendering the spec prescribes for minify mode (section 4.1):
the formatter's escaping and ordering rules with no newlines or
indentation and the single separator characters comma and colon with no
surrounding space.  This is the formatter's pretty rendering with all
insignificant whitespace removed, stated as a definition that follows the
spec's words. -/
def compactRender : Value → String
  | .null => "null"
  | .bool b => if b then "true" else "false"
  | .num s => s
  | .str s => "\"" ++ escapeString s ++ "\""
  | .arr [] => "[]"
  | .arr (v :: vs) => "[" ++ compactItems (v :: vs) ++ "]"
  | .obj [] => "\x7b\x7d"
  | .obj (e :: es) => "\x7b" ++ compactEntries (e :: es) ++ "\x7d"

/-- Comma-separated spec-side compact rendering of array items. -/
def compactItems : List Value → String
  | [] => ""
  | [v] => compactRender v
  | v :: v2 :: vs => compactRender v ++ "," ++ compactItems (v2 :: vs)

/-- Comma-separated spec-side compact rendering of object entries; the
formatter emits keys verbatim between quotes. -/
def compactEntries : List (String × Value) → String
  | [] => ""
  | [(k, v)] => "\"" ++ k ++ "\":" ++ compactRender v
  | (k, v) :: e2 :: es =>
      "\"" ++ k ++ "\":" ++ compactRender v ++ "," ++ compactEntries (e2 :: es)

end

/-- True of a character that serde_json's string escaping emits
verbatim: not a quote, not a backslash, not below 0x20. -/
def serdeNoEscape (c : Char) : Bool :=
  !(c == '"') && !(c == '\\') && decide (0x20 ≤ c.toNat)

/-- True of a character on which serde_json's escaping and the
formatter's escaping agree: everything except backspace (0x08), form feed
(0x0C) and the 0x7F-0x9F range. -/
def charMinifyAgrees (c : Char) : Bool :=
  !(c == Char.ofNat 0x08) && !(c == Char.ofNat 0x0c)
    && !(decide (0x7f ≤ c.toNat) && decide (c.toNat ≤ 0x9f))

mutual

/-- Trees on which minify_json and the whitespace-free formatter
rendering coincide: every string character is outside the finitely many
code points where the two escapings differ, and every object key needs no
escaping at all (the formatter emits keys verbatim while serde_json
escapes them). -/
def niceValue : Value → Bool
  | .null => true
  | .bool _ => true
  | .num _ => true
  | .str s => s.data.all charMinifyAgrees
  | .arr items => niceItems items
  | .obj entries => niceEntries entries

/-- niceValue over array items. -/
def niceItems : List Value → Bool
  | [] => true
  | v :: vs => niceValue v && niceItems vs

/-- niceValue over object entries. -/
def niceEntries : List (String × Value) → Bool
  | [] => true
  | (k, v) :: es => k.data.all serdeNoEscape && niceValue v && niceEntries es

end

/-! ### Highlighter (highlighter.rs)

The index-based scan over `chars: Vec<char>` is modelled on the suffix of
the character list starting at the current index.  Every helper that the
source gives a start index and that returns an end index here receives
the suffix at the start index and returns the suffix at the end index. -/

namespace colors

/-- Color for string values. -/
def STRING : String := "#ce9178"

/-- Color for object keys. -/
def KEY : String := "#9cdcfe"

/-- Color for numbers. -/
def NUMBER : String := "#b5cea8"

/-- Color for booleans. -/
def BOOLEAN : String := "#569cd6"

/-- Color for null. -/
def NULL : String := "#569cd6"

/-- Color for brackets. -/
def BRACKET : String := "#ffd700"

/-- Color for colons and commas. -/
def PUNCTUATION : String := "#d4d4d4"

end colors

/-- push_colored from highlighter.rs: wrap the text in a span carrying the
inline color style. -/
def pushColored (text : String) (color : String) : String :=
  "<span style=\"color:" ++ color ++ "\">" ++ text ++ "</span>"

/-- push_escaped from highlighter.rs: substitute the three HTML-sensitive
characters, pass everything else through. -/
def pushEscaped (c : Char) : String :=
  if c == '<' then "&lt;"
  else if c == '>' then "&gt;"
  else if c == '&' then "&amp;"
  else String.singleton c

/-- The loop of parse_string from highlighter.rs, carrying the result
accumulated so far.  The argument list is the suffix after the last
consumed character.  A backslash with a following character copies both
verbatim; a backslash that is the last character falls into the default
arm of the source match and is copied alone.  Reaching the end of input
returns the accumulated token (unterminated strings are tolerated). -/
def parseStringAux : List Char → String → String × List Char
  | [], acc => (acc, [])
  | '"' :: rest, acc => (acc.push '"', rest)
  | '\\' :: d :: rest, acc => parseStringAux rest ((acc.push '\\').push d)
  | '<' :: rest, acc => parseStringAux rest (acc ++ "&lt;")
  | '>' :: rest, acc => parseStringAux rest (acc ++ "&gt;")
  | '&' :: rest, acc => parseStringAux rest (acc ++ "&amp;")
  | c :: rest, acc => parseStringAux rest (acc.push c)

/-- parse_string from highlighter.rs: receives the suffix after the
opening quote, starts the result with the opening quote. -/
def parseString (cs : List Char) : String × List Char :=
  parseStringAux cs "\""

/-- A digit-consuming while loop of parse_number from highlighter.rs. -/
def scanDigits : List Char → String → String × List Char
  | [], acc => (acc, [])
  | c :: rest, acc =>
    if c.isDigit then scanDigits rest (acc.push c) else (acc, c :: rest)

/-- The optional-minus block of parse_number. -/
def scanSign : List Char → String × List Char
  | '-' :: rest => ("-", rest)
  | cs => ("", cs)

/-- The decimal-part block of parse_number: an optional dot followed by
fraction digits. -/
def scanFrac (p : String × List Char) : String × List Char :=
  match p.2 with
  | '.' :: rest => scanDigits rest (p.1.push '.')
  | _ => p

/-- The exponent block of parse_number: an optional `e`/`E` followed by an
optional sign and exponent digits. -/
def scanExp (p : String × List Char) : String × List Char :=
  match p.2 with
  | c :: rest =>
    if c == 'e' || c == 'E' then
      match rest with
      | s :: rest2 =>
        if s == '+' || s == '-' then scanDigits rest2 ((p.1.push c).push s)
        else scanDigits rest (p.1.push c)
      | [] => (p.1.push c, [])
    else p
  | [] => p

/-- parse_number from highlighter.rs: optional minus, integer digits,
optional dot with fraction digits, optional exponent marker with optional
sign and exponent digits, each block exactly as in the source.  Receives
the suffix at the number's first character. -/
def parseNumber (cs : List Char) : String × List Char :=
  let p1 := scanSign cs
  let p2 := scanDigits p1.2 p1.1
  scanExp (scanFrac p2)

/-- matches_keyword from highlighter.rs, generic in the keyword-boundary
predicate.  The source consults Rust's `char::is_alphanumeric`, a Unicode
character-property table that lives outside this repository, to reject a
match whose run continues with an alphanumeric character.  The scan is
modelled with that predicate as a parameter `alnum`, and every theorem
below about the tokenizer is proved for an arbitrary predicate, so each
holds in particular for the program's. -/
def matchesKeyword (alnum : Char → Bool) (cs : List Char) (kw : String) : Bool :=
  kw.data.isPrefixOf cs &&
    (match cs.drop kw.data.length with
     | [] => true
     | d :: _ => !alnum d)

/-- The whitespace characters the highlighter copies through unmodified. -/
def isWsChar (c : Char) : Bool :=
  c == ' ' || c == '\t' || c == '\n' || c == '\r'

/-- The characters that start a number token. -/
def isNumStart (c : Char) : Bool := c == '-' || c.isDigit

/-- True when the head of the suffix falls into the catch-all arm of the
highlighter's dispatch: none of the whitespace, bracket, punctuation,
string, number or keyword cases apply. -/
def isOtherStart (alnum : Char → Bool) : List Char → Bool
  | [] => false
  | c :: rest =>
    !(isWsChar c) && !(c == lbrace) && !(c == rbrace) && !(c == '[')
      && !(c == ']') && !(c == ':') && !(c == ',') && !(c == '"')
      && !(isNumStart c)
      && !(c == 't' && matchesKeyword alnum (c :: rest) ("true"))
      && !(c == 'f' && matchesKeyword alnum (c :: rest) ("false"))
      && !(c == 'n' && matchesKeyword alnum (c :: rest) ("null"))

/-- The result of one iteration of the highlighter's dispatch loop: the
text appended to the output, the new expecting-key flag, the new bracket
stack and the remaining input suffix. -/
structure HlStep where
  out : String
  ek : Bool
  stack : List Char
  rest : List Char

/-- One iteration of the while loop of highlight_json: dispatch on the
current character exactly as the source match does, generic in the
keyword-boundary predicate consumed by matchesKeyword.  The stack is kept
with its top at the head (Vec::push becomes cons, Vec::pop becomes tail,
Vec::last becomes head?). -/
def hlStep (alnum : Char → Bool) : List Char → Bool → List Char → HlStep
  | [], ek, st => ⟨"", ek, st, []⟩
  | c :: rest, ek, st =>
    if isWsChar c then ⟨String.singleton c, ek, st, rest⟩
    else if c == lbrace then
      ⟨pushColored ("\x7b") colors.BRACKET, true, lbrace :: st, rest⟩
    else if c == rbrace then
      ⟨pushColored ("\x7d") colors.BRACKET, false, st.tail, rest⟩
    else if c == '[' then
      ⟨pushColored ("[") colors.BRACKET, false, '[' :: st, rest⟩
    else if c == ']' then
      ⟨pushColored ("]") colors.BRACKET, false, st.tail, rest⟩
    else if c == ':' then
      ⟨pushColored (":") colors.PUNCTUATION, false, st, rest⟩
    else if c == ',' then
      ⟨pushColored (",") colors.PUNCTUATION, st.head? == some lbrace, st, rest⟩
    else if c == '"' then
      let r := parseString rest
      ⟨pushColored r.1 (if ek then colors.KEY else colors.STRING), false, st, r.2⟩
    else if isNumStart c then
      let r := parseNumber (c :: rest)
      ⟨pushColored r.1 colors.NUMBER, false, st, r.2⟩
    else if c == 't' && matchesKeyword alnum (c :: rest) ("true") then
      ⟨pushColored ("true") colors.BOOLEAN, false, st, rest.drop 3⟩
    else if c == 'f' && matchesKeyword alnum (c :: rest) ("false") then
      ⟨pushColored ("false") colors.BOOLEAN, false, st, rest.drop 4⟩
    else if c == 'n' && matchesKeyword alnum (c :: rest) ("null") then
      ⟨pushColored ("null") colors.NULL, false, st, rest.drop 3⟩
    else ⟨pushEscaped c, ek, st, rest⟩

/-- The while loop of highlight_json.  The first argument is a bound on
the number of iterations; since every iteration consumes at least one
character, the loop runs to completion whenever the bound is at least the
length of the input, which the fuel-independence theorem below makes
precise. -/
def hlLoop (alnum : Char → Bool) : Nat → List Char → Bool → List Char → String
  | _, [], _, _ => ""
  | 0, _ :: _, _, _ => ""
  | n + 1, c :: rest, ek, st =>
    let r := hlStep alnum (c :: rest) ek st
    r.out ++ hlLoop alnum n r.rest r.ek r.stack

/-- The fixed opening markup of highlight_json's output container. -/
def preTag : String := "<pre style=\"margin:0;font-family:inherit;\">"

/-- highlight_json from highlighter.rs: empty input short-circuits to the
empty string; otherwise the scan starts with an empty bracket stack and a
cleared expecting-key flag, wrapped in the pre container. -/
def highlightJson (alnum : Char → Bool) (input : String) : String :=
  if input = "" then ""
  else preTag ++ hlLoop alnum input.data.length input.data false [] ++ "</pre>"

/-- Concatenation of a per-character rendering over a character list; the
functional form of the buffer-append loops of the source. -/
def concatMapStr (f : Char → String) : List Char → String
  | [] => ""
  | c :: cs => f c ++ concatMapStr f cs

/-- The escaping rule of the amended claim C5: quote, backslash, newline,
carriage return and tab become their two-character forms; every other
character whose code point is below 0x20 or lies in 0x7F through 0x9F
(the rest of Unicode category Cc) becomes a lowercase four-digit
`\uXXXX` escape; every remaining character passes through unescaped. -/
def escapeCharSpec (c : Char) : String :=
  if c == '"' then "\\\""
  else if c == '\\' then "\\\\"
  else if c == '\n' then "\\n"
  else if c == '\r' then "\\r"
  else if c == '\t' then "\\t"
  else if c.toNat < 0x20 then "\\u" ++ toHex4 c.toNat
  else if 0x7f ≤ c.toNat ∧ c.toNat ≤ 0x9f then "\\u" ++ toHex4 c.toNat
  else String.singleton c

/-- An adjacent pair is safe when its right member is not a raw greater
than sign, or the left member is one of the characters that legitimately
precede one in the emitted markup: the closing quote of a span opening
tag, the n of a closing span tag, the e of the closing pre tag, or a
backslash from the verbatim escape copy inside a string token. -/
def gtOkPair (a b : Char) : Bool :=
  (b != '>') || (a == '"') || (a == 'n') || (a == 'e') || (a == '\\')

/-- Every adjacent pair of the list is safe. -/
def gtSafe : List Char → Bool
  | [] => true
  | [_] => true
  | a :: b :: rest => gtOkPair a b && gtSafe (b :: rest)

/-- The list does not begin with a raw greater than sign. -/
def headOk (l : List Char) : Bool := l.head? != some '>'

/-! ### Statistics: count conservation -/

mutual

theorem collectStats_sum (v : Value) (d : Nat) (s : JsonStats) :
    sumCounts (collectStats v d s) = sumCounts s + nodeCount v := by
  cases v with
  | null => simp [collectStats, nodeCount, sumCounts]; omega
  | bool b => simp [collectStats, nodeCount, sumCounts]; omega
  | num t => simp [collectStats, nodeCount, sumCounts]; omega
  | str t => simp [collectStats, nodeCount, sumCounts]; omega
  | arr items =>
      have h := collectStatsItems_sum items (d + 1)
        { { s with max_depth := max s.max_depth d } with
            array_count := s.array_count + 1 }
      simp only [collectStats]
      rw [h]
      simp [nodeCount, sumCounts]; omega
  | obj entries =>
      have h := collectStatsEntries_sum entries (d + 1)
        { { s with max_depth := max s.max_depth d } with
            object_count := s.object_count + 1,
            total_keys := s.total_keys + entries.length }
      simp only [collectStats]
      rw [h]
      simp [nodeCount, sumCounts]; omega

theorem collectStatsItems_sum (items : List Value) (d : Nat) (s : JsonStats) :
    sumCounts (collectStatsItems items d s)
      = sumCounts s + nodeCountItems items := by
  cases items with
  | nil => simp [collectStatsItems, nodeCountItems]
  | cons v vs =>
      rw [collectStatsItems, collectStatsItems_sum vs d, collectStats_sum v d]
      simp [nodeCountItems]; omega

theorem collectStatsEntries_sum (entries : List (String × Value)) (d : Nat)
    (s : JsonStats) :
    sumCounts (collectStatsEntries entries d s)
      = sumCounts s + nodeCountEntries entries := by
  cases entries with
  | nil => simp [collectStatsEntries, nodeCountEntries]
  | cons e es =>
      rw [collectStatsEntries, collectStatsEntries_sum es d, collectStats_sum e.2 d]
      simp [nodeCountEntries]; omega

end

/-! ### Sorted insertion into the object map -/

theorem charsLtb_trans :
    ∀ (a b c : List Char), charsLtb a b = true → charsLtb b c = true →
      charsLtb a c = true := by
  intro a
  induction a with
  | nil =>
      intro b c hab hbc
      cases b with
      | nil => simp [charsLtb] at hab
      | cons y ys =>
          cases c with
          | nil => simp [charsLtb] at hbc
          | cons z zs => simp [charsLtb]
  | cons x xs ih =>
      intro b c hab hbc
      cases b with
      | nil => simp [charsLtb] at hab
      | cons y ys =>
          cases c with
          | nil => simp [charsLtb] at hbc
          | cons z zs =>
              by_cases h1 : x < y
              · by_cases h2 : y < z
                · have hxz : x < z := lt_trans h1 h2
                  simp [charsLtb, hxz]
                · by_cases h3 : z < y
                  · simp [charsLtb, h2, h3] at hbc
                  · have hyz : y = z := le_antisymm (not_lt.mp h3) (not_lt.mp h2)
                    subst hyz
                    simp [charsLtb, h1]
              · by_cases h4 : y < x
                · simp [charsLtb, h1, h4] at hab
                · have hxy : x = y := le_antisymm (not_lt.mp h4) (not_lt.mp h1)
                  subst hxy
                  by_cases h2 : x < z
                  · simp [charsLtb, h2]
                  · by_cases h3 : z < x
                    · simp [charsLtb, h2, h3] at hbc
                    · have hxz : x = z := le_antisymm (not_lt.mp h3) (not_lt.mp h2)
                      subst hxz
                      simp [charsLtb, h1] at hab hbc ⊢
                      exact ih ys zs hab hbc

theorem charsLtb_eq :
    ∀ (a b : List Char), charsLtb a b = false → charsLtb b a = false → a = b := by
  intro a
  induction a with
  | nil =>
      intro b hab _
      cases b with
      | nil => rfl
      | cons y ys => simp [charsLtb] at hab
  | cons x xs ih =>
      intro b hab hba
      cases b with
      | nil => simp [charsLtb] at hba
      | cons y ys =>
          by_cases h1 : x < y
          · simp [charsLtb, h1] at hab
          · by_cases h2 : y < x
            · simp [charsLtb, h2] at hba
            · have hxy : x = y := le_antisymm (not_lt.mp h2) (not_lt.mp h1)
              subst hxy
              simp [charsLtb, h1] at hab hba
              rw [ih ys hab hba]

theorem strLtb_trans (a b c : String) (hab : strLtb a b = true)
    (hbc : strLtb b c = true) : strLtb a c = true :=
  charsLtb_trans a.data b.data c.data hab hbc

theorem strLtb_eq (a b : String) (hab : strLtb a b = false)
    (hba : strLtb b a = false) : a = b := by
  cases a with
  | mk da =>
      cases b with
      | mk db => exact congrArg String.mk (charsLtb_eq da db hab hba)

theorem mem_btreeInsert {x : String × Value} :
    ∀ {l : List (String × Value)} {k : String} {v : Value},
      x ∈ btreeInsert l k v → x = (k, v) ∨ x ∈ l := by
  intro l
  induction l with
  | nil =>
      intro k v h
      simp [btreeInsert] at h
      left; exact h
  | cons e rest ih =>
      obtain ⟨k', v'⟩ := e
      intro k v h
      simp only [btreeInsert] at h
      split_ifs at h with h1 h2
      · simp only [List.mem_cons] at h ⊢
        tauto
      · simp only [List.mem_cons] at h ⊢
        rcases h with h | h
        · tauto
        · rcases ih h with h' | h'
          · tauto
          · tauto
      · simp only [List.mem_cons] at h ⊢
        tauto

theorem pairwise_btreeInsert :
    ∀ {l : List (String × Value)} {k : String} {v : Value},
      l.Pairwise (fun a b => strLtb a.1 b.1 = true) →
      (btreeInsert l k v).Pairwise (fun a b => strLtb a.1 b.1 = true) := by
  intro l
  induction l with
  | nil => intro k v _; simp [btreeInsert]
  | cons e rest ih =>
      obtain ⟨k', v'⟩ := e
      intro k v hp
      rcases List.pairwise_cons.mp hp with ⟨hhead, htail⟩
      simp only [btreeInsert]
      split_ifs with h1 h2
      · refine List.pairwise_cons.mpr ⟨?_, hp⟩
        intro b hb
        rcases List.mem_cons.mp hb with hb | hb
        · subst hb; exact h1
        · exact strLtb_trans _ _ _ h1 (hhead b hb)
      · refine List.pairwise_cons.mpr ⟨?_, ih htail⟩
        intro b hb
        rcases mem_btreeInsert hb with hb | hb
        · subst hb; exact h2
        · exact hhead b hb
      · have hk : k = k' := strLtb_eq k k' (by simpa using h1) (by simpa using h2)
        subst hk
        exact List.pairwise_cons.mpr ⟨hhead, htail⟩

theorem pairwise_mkObject_aux :
    ∀ (ps acc : List (String × Value)),
      acc.Pairwise (fun a b => strLtb a.1 b.1 = true) →
      (ps.foldl (fun acc p => btreeInsert acc p.1 p.2) acc).Pairwise
        (fun a b => strLtb a.1 b.1 = true) := by
  intro ps
  induction ps with
  | nil => intro acc h; simpa using h
  | cons p ps ih =>
      intro acc h
      exact ih (btreeInsert acc p.1 p.2) (pairwise_btreeInsert h)

theorem pairwise_mkObject (ps : List (String × Value)) :
    (mkObject ps).Pairwise (fun a b => strLtb a.1 b.1 = true) :=
  pairwise_mkObject_aux ps [] List.Pairwise.nil

/-! ### String escaping lemmas -/

theorem foldl_append_eq_concatMapStr (f : Char → String) :
    ∀ (l : List Char) (init : String),
      l.foldl (fun acc c => acc ++ f c) init = init ++ concatMapStr f l := by
  intro l
  induction l with
  | nil => intro init; simp [concatMapStr]
  | cons c cs ih =>
      intro init
      simp only [List.foldl_cons, concatMapStr]
      rw [ih, String.append_assoc]

theorem escapeString_eq (s : String) :
    escapeString s = concatMapStr escapeChar s.data := by
  rw [escapeString, foldl_append_eq_concatMapStr, String.empty_append]

theorem serdeEscapeString_eq (s : String) :
    serdeEscapeString s = concatMapStr serdeEscapeChar s.data := by
  rw [serdeEscapeString, foldl_append_eq_concatMapStr, String.empty_append]

theorem concatMapStr_congr_of_all (f g : Char → String) (p : Char → Bool)
    (hfg : ∀ c, p c = true → f c = g c) :
    ∀ (l : List Char), l.all p = true → concatMapStr f l = concatMapStr g l := by
  intro l
  induction l with
  | nil => intro _; rfl
  | cons c cs ih =>
      intro h
      simp only [List.all_cons, Bool.and_eq_true] at h
      simp only [concatMapStr]
      rw [hfg c h.1, ih h.2]

theorem escapeChar_eq_spec (c : Char) : escapeChar c = escapeCharSpec c := by
  simp only [escapeChar, escapeCharSpec, rustIsControl]
  split_ifs <;> simp_all

/-- On characters where the two escapings agree, serde's escape equals the
formatter's escape. -/
theorem serdeEscapeChar_agrees (c : Char) (h : charMinifyAgrees c = true) :
    serdeEscapeChar c = escapeChar c := by
  simp only [charMinifyAgrees, Bool.and_eq_true, Bool.not_eq_true',
    beq_eq_false_iff_ne, ne_eq, Bool.not_eq_true, Bool.and_eq_false_iff,
    decide_eq_true_eq, decide_eq_false_iff_not, not_le] at h
  simp only [serdeEscapeChar, escapeChar, rustIsControl]
  split_ifs with h1 h2 h3 h4 h5 h6 h7 h8 <;> try rfl
  all_goals simp_all [decide_eq_true_eq]
  all_goals try omega
  -- remaining goal: the generic control-character hex escape
  · apply String.ext
    have e1 : c.toNat / 4096 % 16 = 0 := by omega
    have e2 : c.toNat / 256 % 16 = 0 := by omega
    have e3 : c.toNat / 16 % 16 = c.toNat / 16 := by omega
    simp [toHex4, e1, e2, e3, hexDigit]

theorem concatMapStr_congr (f g : Char → String) (hfg : ∀ c, f c = g c) :
    ∀ (l : List Char), concatMapStr f l = concatMapStr g l := by
  intro l
  induction l with
  | nil => rfl
  | cons c cs ih =>
      simp only [concatMapStr]
      rw [hfg c, ih]

theorem concatMapStr_singleton :
    ∀ (l : List Char), concatMapStr String.singleton l = String.mk l := by
  intro l
  induction l with
  | nil => rfl
  | cons c cs ih =>
      simp only [concatMapStr]
      rw [ih]
      apply String.ext
      simp [String.singleton]

theorem serdeEscapeChar_id (c : Char) (h : serdeNoEscape c = true) :
    serdeEscapeChar c = String.singleton c := by
  simp only [serdeNoEscape, Bool.and_eq_true, Bool.not_eq_true',
    beq_eq_false_iff_ne, ne_eq, decide_eq_true_eq] at h
  obtain ⟨⟨hq, hb⟩, hge⟩ := h
  simp only [serdeEscapeChar]
  split_ifs <;> first | rfl | omega | simp_all

theorem serdeEscapeString_id (k : String) (h : k.data.all serdeNoEscape = true) :
    serdeEscapeString k = k := by
  rw [serdeEscapeString_eq,
    concatMapStr_congr_of_all serdeEscapeChar String.singleton serdeNoEscape
      serdeEscapeChar_id k.data h,
    concatMapStr_singleton]

theorem serdeEscapeString_agrees (s : String)
    (h : s.data.all charMinifyAgrees = true) :
    serdeEscapeString s = escapeString s := by
  rw [serdeEscapeString_eq, escapeString_eq]
  exact concatMapStr_congr_of_all _ _ charMinifyAgrees serdeEscapeChar_agrees s.data h

mutual

theorem minify_eq_compact (v : Value) (h : niceValue v = true) :
    minifyRender v = compactRender v := by
  cases v with
  | null => rfl
  | bool b => rfl
  | num s => rfl
  | str s =>
      simp only [minifyRender, compactRender]
      rw [serdeEscapeString_agrees s (by simpa [niceValue] using h)]
  | arr items =>
      cases items with
      | nil => rfl
      | cons v vs =>
          simp only [minifyRender, compactRender]
          rw [minifyItems_eq_compact (v :: vs) (by simpa [niceValue] using h)]
  | obj entries =>
      cases entries with
      | nil => rfl
      | cons e es =>
          simp only [minifyRender, compactRender]
          rw [minifyEntries_eq_compact (e :: es) (by simpa [niceValue] using h)]

theorem minifyItems_eq_compact (l : List Value) (h : niceItems l = true) :
    minifyItems l = compactItems l := by
  cases l with
  | nil => rfl
  | cons v vs =>
      have h' := h
      simp only [niceItems, Bool.and_eq_true] at h'
      cases vs with
      | nil =>
          simp only [minifyItems, compactItems]
          exact minify_eq_compact v h'.1
      | cons v2 vs2 =>
          simp only [minifyItems, compactItems]
          rw [minify_eq_compact v h'.1, minifyItems_eq_compact (v2 :: vs2) h'.2]

theorem minifyEntries_eq_compact (l : List (String × Value))
    (h : niceEntries l = true) : minifyEntries l = compactEntries l := by
  cases l with
  | nil => rfl
  | cons e es =>
      obtain ⟨k, v⟩ := e
      have h' := h
      simp only [niceEntries, Bool.and_eq_true] at h'
      cases es with
      | nil =>
          simp only [minifyEntries, compactEntries]
          rw [serdeEscapeString_id k h'.1.1, minify_eq_compact v h'.1.2]
      | cons e2 es2 =>
          simp only [minifyEntries, compactEntries]
          rw [serdeEscapeString_id k h'.1.1, minify_eq_compact v h'.1.2,
            minifyEntries_eq_compact (e2 :: es2) h'.2]

end

/-! ### Number scanning -/

theorem scanDigits_spec :
    ∀ (l : List Char) (acc : String),
      ∃ ds rest, scanDigits l acc = (String.mk (acc.data ++ ds), rest) ∧
        l = ds ++ rest ∧ ds.all Char.isDigit = true ∧
        (match rest with | [] => True | c :: _ => c.isDigit = false) := by
  intro l
  induction l with
  | nil =>
      intro acc
      exact ⟨[], [], by simp [scanDigits], by simp, by simp, trivial⟩
  | cons c cs ih =>
      intro acc
      by_cases hc : c.isDigit = true
      · obtain ⟨ds, rest, h1, h2, h3, h4⟩ := ih (acc.push c)
        refine ⟨c :: ds, rest, ?_, by simp [h2], by simp [hc, h3], h4⟩
        rw [scanDigits.eq_def]
        simp only [hc, if_true]
        rw [h1]
        simp
      · refine ⟨[], c :: cs, ?_, by simp, by simp, by simpa using hc⟩
        rw [scanDigits.eq_def]
        simp [hc]

theorem scanSign_spec (cs : List Char) :
    ∃ sign rest, scanSign cs = (String.mk sign, rest) ∧ cs = sign ++ rest ∧
      ((sign = ['-'] ∧ cs.head? = some '-') ∨ (sign = [] ∧ cs.head? ≠ some '-')) := by
  cases cs with
  | nil => exact ⟨[], [], rfl, rfl, Or.inr ⟨rfl, by simp⟩⟩
  | cons c rest =>
      by_cases hc : c = '-'
      · subst hc
        exact ⟨['-'], rest, rfl, rfl, Or.inl ⟨rfl, rfl⟩⟩
      · refine ⟨[], c :: rest, ?_, rfl, Or.inr ⟨rfl, by simp [hc]⟩⟩
        rw [scanSign.eq_def]
        split
        next heq =>
          rw [List.cons.injEq] at heq
          exact absurd heq.1 hc
        next => rfl

theorem scanFrac_spec (acc : String) (l : List Char) :
    ∃ frac rest, scanFrac (acc, l) = (String.mk (acc.data ++ frac), rest) ∧
      l = frac ++ rest ∧
      ((frac = [] ∧ rest = l ∧ l.head? ≠ some '.') ∨
        (∃ fd, frac = '.' :: fd ∧ fd.all Char.isDigit = true ∧
          (match rest with | [] => True | c :: _ => c.isDigit = false))) := by
  cases l with
  | nil =>
      refine ⟨[], [], ?_, rfl, Or.inl ⟨rfl, rfl, by simp⟩⟩
      simp [scanFrac]
  | cons c rest =>
      by_cases hc : c = '.'
      · subst hc
        obtain ⟨ds, rest2, h1, h2, h3, h4⟩ := scanDigits_spec rest (acc.push '.')
        refine ⟨'.' :: ds, rest2, ?_, by simp [h2], Or.inr ⟨ds, rfl, h3, h4⟩⟩
        simp only [scanFrac]
        rw [h1]
        congr 1
        apply String.ext
        simp
      · refine ⟨[], c :: rest, ?_, rfl, Or.inl ⟨rfl, rfl, by simp [hc]⟩⟩
        rw [scanFrac.eq_def]
        split
        next heq =>
          rw [List.cons.injEq] at heq
          exact absurd heq.1 hc
        next => simp

theorem scanExp_spec (acc : String) (l : List Char) :
    ∃ ex rest, scanExp (acc, l) = (String.mk (acc.data ++ ex), rest) ∧
      l = ex ++ rest ∧
      ((ex = [] ∧ rest = l
          ∧ (match l with | c :: _ => ¬(c = 'e' ∨ c = 'E') | [] => True)) ∨
        (∃ e sg ed, ex = e :: (sg ++ ed) ∧ (e = 'e' ∨ e = 'E')
          ∧ (sg = [] ∨ sg = ['+'] ∨ sg = ['-']) ∧ ed.all Char.isDigit = true
          ∧ (match rest with | [] => True | c :: _ => c.isDigit = false))) := by
  cases l with
  | nil =>
      refine ⟨[], [], ?_, rfl, Or.inl ⟨rfl, rfl, trivial⟩⟩
      simp [scanExp]
  | cons c rest =>
      by_cases hc : c = 'e' ∨ c = 'E'
      · have hcc : (c == 'e' || c == 'E') = true := by
          rcases hc with h | h <;> simp [h]
        cases rest with
        | nil =>
            refine ⟨[c], [], ?_, by simp,
              Or.inr ⟨c, [], [], by simp, hc, Or.inl rfl, rfl, trivial⟩⟩
            simp only [scanExp, hcc]
            simp [String.ext_iff]
        | cons s rest2 =>
            by_cases hs : s = '+' ∨ s = '-'
            · have hss : (s == '+' || s == '-') = true := by
                rcases hs with h | h <;> simp [h]
              obtain ⟨ds, rest3, h1, h2, h3, h4⟩ :=
                scanDigits_spec rest2 ((acc.push c).push s)
              refine ⟨c :: s :: ds, rest3, ?_, by simp [h2],
                Or.inr ⟨c, [s], ds, by simp, hc,
                  (by rcases hs with h | h <;> simp [h]), h3, h4⟩⟩
              simp only [scanExp, hcc, hss, if_true]
              rw [h1]
              congr 1
              apply String.ext
              simp
            · have hss : (s == '+' || s == '-') = false := by
                rw [not_or] at hs
                simp [hs.1, hs.2]
              obtain ⟨ds, rest3, h1, h2, h3, h4⟩ :=
                scanDigits_spec (s :: rest2) (acc.push c)
              refine ⟨c :: ds, rest3, ?_, by simp [h2],
                Or.inr ⟨c, [], ds, by simp, hc, Or.inl rfl, h3, h4⟩⟩
              simp only [scanExp, hcc, hss, if_true, Bool.false_eq_true, if_false]
              rw [h1]
              congr 1
              apply String.ext
              simp
      · have hcc : (c == 'e' || c == 'E') = false := by
          rw [not_or] at hc
          simp [hc.1, hc.2]
        refine ⟨[], c :: rest, ?_, rfl, Or.inl ⟨rfl, rfl, hc⟩⟩
        simp only [scanExp, hcc, Bool.false_eq_true, if_false]
        simp

theorem parseNumber_spec (cs : List Char) :
    ∃ sign intD frac ex rest,
      parseNumber cs = (String.mk (((sign ++ intD) ++ frac) ++ ex), rest) ∧
      cs = sign ++ (intD ++ (frac ++ (ex ++ rest))) ∧
      ((sign = ['-'] ∧ cs.head? = some '-') ∨ (sign = [] ∧ cs.head? ≠ some '-')) ∧
      intD.all Char.isDigit = true ∧
      (frac = [] ∨ ∃ fd, frac = '.' :: fd ∧ fd.all Char.isDigit = true) ∧
      (ex = [] ∨ ∃ e sg ed, ex = e :: (sg ++ ed) ∧ (e = 'e' ∨ e = 'E')
        ∧ (sg = [] ∨ sg = ['+'] ∨ sg = ['-']) ∧ ed.all Char.isDigit = true) ∧
      (match rest with
       | [] => True
       | c2 :: _ => c2.isDigit = false ∧ (ex = [] → ¬(c2 = 'e' ∨ c2 = 'E'))
         ∧ (frac = [] ∧ ex = [] → c2 ≠ '.')) := by
  obtain ⟨sign, rest1, e1, d1, hsign⟩ := scanSign_spec cs
  obtain ⟨intD, rest2, e2, d2, hdig, hstop2⟩ := scanDigits_spec rest1 (String.mk sign)
  obtain ⟨frac, rest3, e3, d3, hfrac⟩ :=
    scanFrac_spec (String.mk (sign ++ intD)) rest2
  obtain ⟨ex, rest4, e4, d4, hex⟩ :=
    scanExp_spec (String.mk ((sign ++ intD) ++ frac)) rest3
  have hp2 : scanDigits rest1 (String.mk sign) = (String.mk (sign ++ intD), rest2) := e2
  have hp3 : scanFrac (String.mk (sign ++ intD), rest2)
      = (String.mk ((sign ++ intD) ++ frac), rest3) := e3
  have hp4 : scanExp (String.mk ((sign ++ intD) ++ frac), rest3)
      = (String.mk (((sign ++ intD) ++ frac) ++ ex), rest4) := e4
  refine ⟨sign, intD, frac, ex, rest4, ?_, ?_, hsign, hdig, ?_, ?_, ?_⟩
  · simp only [parseNumber]
    rw [e1, hp2, hp3, hp4]
  · rw [d1, d2, d3, d4]
  · rcases hfrac with h | ⟨fd, hf1, hf2, _⟩
    · exact Or.inl h.1
    · exact Or.inr ⟨fd, hf1, hf2⟩
  · rcases hex with h | ⟨e, sg, ed, h1, h2, h3, h4, _⟩
    · exact Or.inl h.1
    · exact Or.inr ⟨e, sg, ed, h1, h2, h3, h4⟩
  · cases hr4 : rest4 with
    | nil => trivial
    | cons c2 t4 =>
        rcases hex with ⟨hex0, hrr, hnotE⟩ | ⟨e, sg, ed, hx1, hx2, hx3, hx4, hx5⟩
        · -- no exponent block: rest4 = rest3
          subst hex0
          have hr3 : rest3 = c2 :: t4 := by rw [← hrr]; exact hr4
          rcases hfrac with ⟨hf0, hfr, hnotdot⟩ | ⟨fd, hf1, hf2, hf3⟩
          · -- no fraction block either: rest3 = rest2
            subst hf0
            have hr2 : rest2 = c2 :: t4 := by rw [← hfr]; exact hr3
            refine ⟨?_, ?_, ?_⟩
            · rw [hr2] at hstop2
              exact hstop2
            · intro _
              rw [hr3] at hnotE
              exact hnotE
            · intro _
              rw [hr2] at hnotdot
              simp at hnotdot
              exact hnotdot
          · refine ⟨?_, ?_, ?_⟩
            · rw [hr3] at hf3
              exact hf3
            · intro _
              rw [hr3] at hnotE
              exact hnotE
            · intro hcontra
              rw [hf1] at hcontra
              simp at hcontra
        · -- exponent block present: its digit loop stopped at c2
          refine ⟨?_, ?_, ?_⟩
          · rw [hr4] at hx5
            exact hx5
          · intro hcontra
            rw [hx1] at hcontra
            simp at hcontra
          · intro hcontra
            rw [hx1] at hcontra
            simp at hcontra

theorem parseNumber_scan (c : Char) (rest : List Char)
    (h : c = '-' ∨ c.isDigit = true) :
    ∃ sign intD frac ex restOut,
      parseNumber (c :: rest)
        = (String.mk (((sign ++ intD) ++ frac) ++ ex), restOut) ∧
      c :: rest = sign ++ (intD ++ (frac ++ (ex ++ restOut))) ∧
      (sign = [] ∨ sign = ['-']) ∧
      intD.all Char.isDigit = true ∧
      (frac = [] ∨ ∃ fd, frac = '.' :: fd ∧ fd.all Char.isDigit = true) ∧
      (ex = [] ∨ ∃ e sg ed, ex = e :: (sg ++ ed) ∧ (e = 'e' ∨ e = 'E')
        ∧ (sg = [] ∨ sg = ['+'] ∨ sg = ['-']) ∧ ed.all Char.isDigit = true) ∧
      sign ++ intD ≠ [] ∧
      (match restOut with
       | [] => True
       | c2 :: _ => c2.isDigit = false ∧ (ex = [] → ¬(c2 = 'e' ∨ c2 = 'E'))
         ∧ (frac = [] ∧ ex = [] → c2 ≠ '.')) := by
  obtain ⟨sign, intD, frac, ex, restOut, e0, d0, hsign, hdig, hfrac, hex, hstop⟩ :=
    parseNumber_spec (c :: rest)
  refine ⟨sign, intD, frac, ex, restOut, e0, d0, ?_, hdig, hfrac, hex, ?_, hstop⟩
  · rcases hsign with ⟨h1, _⟩ | ⟨h1, _⟩
    · exact Or.inr h1
    · exact Or.inl h1
  · rcases hsign with ⟨h1, _⟩ | ⟨h1, hne⟩
    · subst h1; simp
    · subst h1
      have hcd : c.isDigit = true := by
        rcases h with h | h
        · exact absurd (by simp [h] : (c :: rest).head? = some '-') hne
        · exact h
      cases hi : intD with
      | cons d ds => simp
      | nil =>
          exfalso
          subst hi
          simp only [List.nil_append] at d0
          rcases hfrac with hf | ⟨fd, hf1, _⟩
          · subst hf
            simp only [List.nil_append] at d0
            rcases hex with hx | ⟨e, sg, ed, hx1, hx2, _, _⟩
            · subst hx
              simp only [List.nil_append] at d0
              rw [← d0] at hstop
              exact absurd hcd (by simpa using hstop.1)
            · rw [hx1] at d0
              simp only [List.cons_append] at d0
              have hce : c = e := by injection d0
              have : c.isDigit = false := by
                rcases hx2 with he | he <;> rw [hce, he] <;> decide
              exact absurd hcd (by simp [this])
          · rw [hf1] at d0
            simp only [List.cons_append] at d0
            have hcdot : c = '.' := by injection d0
            rw [hcdot] at hcd
            exact absurd hcd (by decide)

/-- Claim C7: starting at a digit or a leading minus, parse_number
consumes an optional minus, then integer digits, an optional dot with
fraction digits and an optional exponent marker with optional sign and
exponent digits; the emitted token is exactly the consumed prefix, it is
never empty (a bare minus is still emitted), and the scan stops at the
first character that does not extend this grammar: the next character is
never a digit, never an exponent marker unless one was already consumed,
and never a dot unless a fraction or exponent was already consumed. -/
theorem c7_number_scan (c : Char) (rest : List Char)
    (h : c = '-' ∨ c.isDigit = true) :
    ∃ sign intD frac ex restOut,
      parseNumber (c :: rest)
        = (String.mk (((sign ++ intD) ++ frac) ++ ex), restOut) ∧
      c :: rest = sign ++ (intD ++ (frac ++ (ex ++ restOut))) ∧
      (sign = [] ∨ sign = ['-']) ∧
      intD.all Char.isDigit = true ∧
      (frac = [] ∨ ∃ fd, frac = '.' :: fd ∧ fd.all Char.isDigit = true) ∧
      (ex = [] ∨ ∃ e sg ed, ex = e :: (sg ++ ed) ∧ (e = 'e' ∨ e = 'E')
        ∧ (sg = [] ∨ sg = ['+'] ∨ sg = ['-']) ∧ ed.all Char.isDigit = true) ∧
      sign ++ intD ≠ [] ∧
      (match restOut with
       | [] => True
       | c2 :: _ => c2.isDigit = false ∧ (ex = [] → ¬(c2 = 'e' ∨ c2 = 'E'))
         ∧ (frac = [] ∧ ex = [] → c2 ≠ '.')) :=
  parseNumber_scan c rest h

/-- Witness for claim C7 at the concrete input of a bare minus followed
by a non-number character. -/
theorem c7_number_scan_witness :
    (∃ sign intD frac ex restOut,
      parseNumber ('-' :: 'x' :: [])
        = (String.mk (((sign ++ intD) ++ frac) ++ ex), restOut) ∧
      '-' :: 'x' :: [] = sign ++ (intD ++ (frac ++ (ex ++ restOut))) ∧
      (sign = [] ∨ sign = ['-']) ∧
      intD.all Char.isDigit = true ∧
      (frac = [] ∨ ∃ fd, frac = '.' :: fd ∧ fd.all Char.isDigit = true) ∧
      (ex = [] ∨ ∃ e sg ed, ex = e :: (sg ++ ed) ∧ (e = 'e' ∨ e = 'E')
        ∧ (sg = [] ∨ sg = ['+'] ∨ sg = ['-']) ∧ ed.all Char.isDigit = true) ∧
      sign ++ intD ≠ [] ∧
      (match restOut with
       | [] => True
       | c2 :: _ => c2.isDigit = false ∧ (ex = [] → ¬(c2 = 'e' ∨ c2 = 'E'))
         ∧ (frac = [] ∧ ex = [] → c2 ≠ '.'))) ∧
    parseNumber ('-' :: 'x' :: []) = ("-", ['x']) :=
  ⟨c7_number_scan '-' ['x'] (Or.inl rfl), by decide⟩

/-! ### Progress and termination of the highlighter -/

theorem parseStringAux_length (l : List Char) (acc : String) :
    (parseStringAux l acc).2.length ≤ l.length := by
  induction l, acc using parseStringAux.induct <;>
    simp_all [parseStringAux] <;> omega

theorem parseString_length (cs : List Char) :
    (parseString cs).2.length ≤ cs.length :=
  parseStringAux_length cs "\""

theorem parseNumber_progress (c : Char) (rest : List Char)
    (h : c = '-' ∨ c.isDigit = true) :
    (parseNumber (c :: rest)).2.length ≤ rest.length := by
  obtain ⟨sign, intD, frac, ex, restOut, e0, d0, _, _, _, _, hne, _⟩ :=
    parseNumber_scan c rest h
  have hlen := congrArg List.length d0
  simp only [List.length_cons, List.length_append] at hlen
  have hne' : 0 < sign.length + intD.length := by
    rcases Nat.eq_zero_or_pos (sign.length + intD.length) with h0 | h0
    · exfalso
      apply hne
      have hs : sign.length = 0 := by omega
      have hi : intD.length = 0 := by omega
      rw [List.length_eq_zero.mp hs, List.length_eq_zero.mp hi]
      rfl
    · exact h0
  rw [e0]
  simp only []
  omega

set_option maxHeartbeats 1600000 in
theorem hlStep_progress (alnum : Char → Bool) (c : Char) (rest : List Char)
    (ek : Bool) (st : List Char) :
    (hlStep alnum (c :: rest) ek st).rest.length ≤ rest.length := by
  simp only [hlStep]
  by_cases h1 : isWsChar c = true
  · rw [if_pos h1]
  · rw [if_neg h1]
    by_cases h2 : (c == lbrace) = true
    · rw [if_pos h2]
    · rw [if_neg h2]
      by_cases h3 : (c == rbrace) = true
      · rw [if_pos h3]
      · rw [if_neg h3]
        by_cases h4 : (c == '[') = true
        · rw [if_pos h4]
        · rw [if_neg h4]
          by_cases h5 : (c == ']') = true
          · rw [if_pos h5]
          · rw [if_neg h5]
            by_cases h6 : (c == ':') = true
            · rw [if_pos h6]
            · rw [if_neg h6]
              by_cases h7 : (c == ',') = true
              · rw [if_pos h7]
              · rw [if_neg h7]
                by_cases h8 : (c == '"') = true
                · rw [if_pos h8]
                  exact parseString_length rest
                · rw [if_neg h8]
                  by_cases h9 : isNumStart c = true
                  · rw [if_pos h9]
                    simp only [isNumStart, Bool.or_eq_true, beq_iff_eq] at h9
                    exact parseNumber_progress c rest h9
                  · rw [if_neg h9]
                    by_cases h10 : (c == 't' && matchesKeyword alnum (c :: rest) ("true")) = true
                    · rw [if_pos h10]
                      simp [List.length_drop]
                    · rw [if_neg h10]
                      by_cases h11 : (c == 'f' && matchesKeyword alnum (c :: rest) ("false")) = true
                      · rw [if_pos h11]
                        simp [List.length_drop]
                      · rw [if_neg h11]
                        by_cases h12 : (c == 'n' && matchesKeyword alnum (c :: rest) ("null")) = true
                        · rw [if_pos h12]
                          simp [List.length_drop]
                        · rw [if_neg h12]

theorem hlLoop_fuel :
    ∀ (alnum : Char → Bool) (k m n : Nat) (cs : List Char) (ek : Bool)
      (st : List Char),
      cs.length ≤ k → cs.length ≤ m → cs.length ≤ n →
      hlLoop alnum m cs ek st = hlLoop alnum n cs ek st := by
  intro alnum k
  induction k with
  | zero =>
      intro m n cs ek st hk _ _
      have : cs = [] := List.length_eq_zero.mp (Nat.le_zero.mp hk)
      subst this
      cases m <;> cases n <;> rfl
  | succ k ih =>
      intro m n cs ek st hk hm hn
      cases cs with
      | nil => cases m <;> cases n <;> rfl
      | cons c rest =>
          simp only [List.length_cons] at hk hm hn
          cases m with
          | zero => omega
          | succ m' =>
              cases n with
              | zero => omega
              | succ n' =>
                  simp only [hlLoop]
                  have hp := hlStep_progress alnum c rest ek st
                  congr 1
                  exact ih m' n' (hlStep alnum (c :: rest) ek st).rest
                    (hlStep alnum (c :: rest) ek st).ek
                    (hlStep alnum (c :: rest) ek st).stack
                    (by omega) (by omega) (by omega)

/-- Claim C3: highlight_json is total.  The scanning loop gives the same
result under any iteration bound at least the input length (every
dispatch consumes at least one character, so the scan terminates within
length many steps and never fails); the empty input short-circuits to the
empty string with no container markup; every other input produces the
outer pre container around some body markup.  All three parts hold for
every keyword-boundary predicate, hence for the program's. -/
theorem c3_highlight_total :
    (∀ (alnum : Char → Bool) (m n : Nat) (cs : List Char) (ek : Bool)
      (st : List Char),
      cs.length ≤ m → cs.length ≤ n →
      hlLoop alnum m cs ek st = hlLoop alnum n cs ek st) ∧
    (∀ alnum : Char → Bool, highlightJson alnum ("") = "") ∧
    (∀ (alnum : Char → Bool) (s : String), (s == "") = false →
      ∃ body, highlightJson alnum s = preTag ++ body ++ "</pre>") := by
  refine ⟨fun alnum m n cs ek st hm hn =>
    hlLoop_fuel alnum cs.length m n cs ek st le_rfl hm hn,
    fun alnum => rfl, ?_⟩
  intro alnum s hs
  refine ⟨hlLoop alnum s.data.length s.data false [], ?_⟩
  rw [highlightJson, if_neg (by simpa using hs)]

/-- Witness for claim C3: the loop bound is irrelevant on a concrete
input, and a concrete nonempty input gets the container markup. -/
theorem c3_highlight_total_witness :
    hlLoop Char.isAlphanum 5 ("1").data false []
      = hlLoop Char.isAlphanum 1 ("1").data false [] ∧
    (∃ body, highlightJson Char.isAlphanum ("1") = preTag ++ body ++ "</pre>") :=
  ⟨c3_highlight_total.1 Char.isAlphanum 5 1 ("1").data false [] (by decide) (by decide),
   c3_highlight_total.2.2 Char.isAlphanum ("1") (by decide)⟩

/-- Claim C4: the highlighter colors a string token as an object key
exactly when the expecting-key flag is set at the token's start, using a
category distinct from string values, and the flag after a dispatch step
is set exactly by an emitted left curly bracket or by a comma whose
innermost open bracket is a left curly bracket, while whitespace and
unclassified characters merely preserve it; no look-ahead for a colon is
involved.  Both laws are proved for an arbitrary keyword-boundary
predicate, so they hold for the program's Unicode
`char::is_alphanumeric` in particular. -/
theorem c4_key_flag :
    ((colors.KEY == colors.STRING) = false) ∧
    (∀ (alnum : Char → Bool) (rest : List Char) (ek : Bool) (st : List Char),
      (hlStep alnum ('"' :: rest) ek st).out
        = pushColored (parseString rest).1
            (if ek then colors.KEY else colors.STRING)) ∧
    (∀ (alnum : Char → Bool) (c : Char) (rest : List Char) (ek : Bool)
      (st : List Char),
      (hlStep alnum (c :: rest) ek st).ek
        = (c == lbrace || (c == ',' && st.head? == some lbrace)
            || ((isWsChar c || isOtherStart alnum (c :: rest)) && ek))) := by
  refine ⟨by decide, fun alnum rest ek st => rfl, ?_⟩
  intro alnum c rest ek st
  simp only [hlStep]
  by_cases h1 : isWsChar c = true
  · rw [if_pos h1]
    have hws := h1
    simp only [isWsChar, Bool.or_eq_true, beq_iff_eq] at hws
    rcases hws with ((hc | hc) | hc) | hc <;> subst hc <;>
      simp [isOtherStart, isWsChar, lbrace]
  · rw [if_neg h1]
    by_cases h2 : (c == lbrace) = true
    · rw [if_pos h2]
      simp [h2]
    · rw [if_neg h2]
      by_cases h3 : (c == rbrace) = true
      · rw [if_pos h3]
        have hc : c = rbrace := by simpa using h3
        subst hc
        simp [isOtherStart, isWsChar, isNumStart, lbrace, rbrace]
      · rw [if_neg h3]
        by_cases h4 : (c == '[') = true
        · rw [if_pos h4]
          have hc : c = '[' := by simpa using h4
          subst hc
          simp [isOtherStart, isWsChar, isNumStart, lbrace]
        · rw [if_neg h4]
          by_cases h5 : (c == ']') = true
          · rw [if_pos h5]
            have hc : c = ']' := by simpa using h5
            subst hc
            simp [isOtherStart, isWsChar, isNumStart, lbrace]
          · rw [if_neg h5]
            by_cases h6 : (c == ':') = true
            · rw [if_pos h6]
              have hc : c = ':' := by simpa using h6
              subst hc
              simp [isOtherStart, isWsChar, isNumStart, lbrace]
            · rw [if_neg h6]
              by_cases h7 : (c == ',') = true
              · rw [if_pos h7]
                have hc : c = ',' := by simpa using h7
                subst hc
                simp [isOtherStart, isWsChar, lbrace]
              · rw [if_neg h7]
                by_cases h8 : (c == '"') = true
                · rw [if_pos h8]
                  have hc : c = '"' := by simpa using h8
                  subst hc
                  simp [isOtherStart, isWsChar, lbrace]
                · rw [if_neg h8]
                  by_cases h9 : isNumStart c = true
                  · rw [if_pos h9]
                    simp only [Bool.not_eq_true] at h1 h2 h7
                    simp [isOtherStart, h1, h2, h7, h9]
                  · rw [if_neg h9]
                    by_cases h10 : (c == 't' && matchesKeyword alnum (c :: rest) ("true")) = true
                    · rw [if_pos h10]
                      simp only [Bool.not_eq_true] at h1 h2 h7
                      simp [isOtherStart, h1, h2, h7, h10]
                    · rw [if_neg h10]
                      by_cases h11 : (c == 'f' && matchesKeyword alnum (c :: rest) ("false")) = true
                      · rw [if_pos h11]
                        simp only [Bool.not_eq_true] at h1 h2 h7
                        simp [isOtherStart, h1, h2, h7, h11]
                      · rw [if_neg h11]
                        by_cases h12 : (c == 'n' && matchesKeyword alnum (c :: rest) ("null")) = true
                        · rw [if_pos h12]
                          simp only [Bool.not_eq_true] at h1 h2 h7
                          simp [isOtherStart, h1, h2, h7, h12]
                        · rw [if_neg h12]
                          simp only [Bool.not_eq_true] at h1 h2 h3 h4 h5 h6 h7 h8 h9 h10 h11 h12
                          simp [isOtherStart, h1, h2, h3, h4, h5, h6, h7, h8, h9, h10, h11, h12]

/-! ### HTML safety of the highlighter output -/

theorem gtSafe_cons (a : Char) (l : List Char) (h : gtSafe (a :: l) = true) :
    gtSafe l = true := by
  cases l with
  | nil => rfl
  | cons b t =>
      simp only [gtSafe, Bool.and_eq_true] at h
      exact h.2

theorem headOk_append (l1 l2 : List Char) (h1 : headOk l1 = true)
    (h2 : headOk l2 = true) : headOk (l1 ++ l2) = true := by
  cases l1 with
  | nil => simpa using h2
  | cons a t => simpa [headOk] using h1

theorem gtSafe_append :
    ∀ (l1 l2 : List Char), gtSafe l1 = true → gtSafe l2 = true →
      headOk l2 = true → gtSafe (l1 ++ l2) = true := by
  intro l1
  induction l1 with
  | nil => intro l2 _ h2 _; simpa using h2
  | cons a t ih =>
      intro l2 h1 h2 hh
      cases t with
      | nil =>
          cases l2 with
          | nil => simpa using h1
          | cons b u =>
              simp only [List.cons_append, List.nil_append, gtSafe,
                Bool.and_eq_true]
              refine ⟨?_, h2⟩
              simp only [headOk, List.head?, bne_iff_ne, ne_eq] at hh
              have hb : b ≠ '>' := fun hbe => hh (by rw [hbe])
              simp [gtOkPair, bne_iff_ne, hb]
      | cons b u =>
          rw [gtSafe, Bool.and_eq_true] at h1
          simp only [List.cons_append]
          rw [gtSafe.eq_def]
          simp only [Bool.and_eq_true]
          exact ⟨h1.1, by simpa using ih l2 h1.2 h2 hh⟩

theorem gtSafe_of_noGt :
    ∀ (l : List Char), l.all (fun b => b != '>') = true →
      gtSafe l = true ∧ headOk l = true := by
  intro l
  induction l with
  | nil => intro _; exact ⟨rfl, rfl⟩
  | cons a t ih =>
      intro h
      simp only [List.all_cons, Bool.and_eq_true] at h
      obtain ⟨ht1, ht2⟩ := ih h.2
      refine ⟨?_, by simpa [headOk, bne_iff_ne] using (by simpa [bne_iff_ne] using h.1 : a ≠ '>')⟩
      cases t with
      | nil => rfl
      | cons b u =>
          rw [gtSafe, Bool.and_eq_true]
          refine ⟨?_, ht1⟩
          have hb : b ≠ '>' := by
            simp only [List.all_cons, Bool.and_eq_true] at h
            simpa [bne_iff_ne] using h.2.1
          simp [gtOkPair, bne_iff_ne, hb]

theorem parseStringAux_safe :
    ∀ (l : List Char) (acc : String),
      gtSafe acc.data = true → headOk acc.data = true →
      gtSafe (parseStringAux l acc).1.data = true ∧
        headOk (parseStringAux l acc).1.data = true := by
  intro l acc
  induction l, acc using parseStringAux.induct with
  | case1 acc => intro hg hh; exact ⟨hg, hh⟩
  | case2 rest acc =>
      intro hg hh
      simp only [parseStringAux, String.data_push]
      exact ⟨gtSafe_append _ _ hg (by decide) (by decide),
        headOk_append _ _ hh (by decide)⟩
  | case3 d rest acc ih =>
      intro hg hh
      simp only [parseStringAux]
      refine ih ?_ ?_
      · simp only [String.data_push, List.append_assoc, List.cons_append,
          List.nil_append]
        refine gtSafe_append _ _ hg ?_ (by rfl)
        simp [gtSafe, gtOkPair]
      · simp only [String.data_push, List.append_assoc, List.cons_append,
          List.nil_append]
        exact headOk_append _ _ hh (by rfl)
  | case4 rest acc ih =>
      intro hg hh
      simp only [parseStringAux, String.data_append]
      refine ih ?_ ?_
      · simpa using gtSafe_append _ _ hg (by decide) (by decide)
      · simpa using headOk_append _ _ hh (by decide)
  | case5 rest acc ih =>
      intro hg hh
      simp only [parseStringAux, String.data_append]
      refine ih ?_ ?_
      · simpa using gtSafe_append _ _ hg (by decide) (by decide)
      · simpa using headOk_append _ _ hh (by decide)
  | case6 rest acc ih =>
      intro hg hh
      simp only [parseStringAux, String.data_append]
      refine ih ?_ ?_
      · simpa using gtSafe_append _ _ hg (by decide) (by decide)
      · simpa using headOk_append _ _ hh (by decide)
  | case7 c rest acc hne1 hne2 hne3 hne4 hne5 ih =>
      intro hg hh
      have hstep : parseStringAux (c :: rest) acc = parseStringAux rest (acc.push c) := by
        rw [parseStringAux.eq_def]
        split <;> simp_all
      rw [hstep]
      have hcgt : ([c].head? != some '>') = true := by
        simp only [List.head?, bne_iff_ne, ne_eq, Option.some.injEq]
        exact hne4
      refine ih ?_ ?_
      · simp only [String.data_push]
        exact gtSafe_append _ _ hg rfl hcgt
      · simp only [String.data_push]
        exact headOk_append _ _ hh hcgt

theorem digit_ne_gt (b : Char) (h : b.isDigit = true) : (b != '>') = true := by
  simp only [bne_iff_ne, ne_eq]
  intro he
  rw [he] at h
  exact absurd h (by decide)

theorem all_digit_noGt (l : List Char) (h : l.all Char.isDigit = true) :
    (l.all fun b => b != '>') = true := by
  simp only [List.all_eq_true] at h ⊢
  intro b hb
  exact digit_ne_gt b (h b hb)

theorem parseNumber_noGt (c : Char) (rest : List Char)
    (h : c = '-' ∨ c.isDigit = true) :
    ((parseNumber (c :: rest)).1.data.all fun b => b != '>') = true := by
  obtain ⟨sign, intD, frac, ex, restOut, e0, _, hsig, hdig, hfrac, hex, _, _⟩ :=
    parseNumber_scan c rest h
  rw [e0]
  show ((((sign ++ intD) ++ frac) ++ ex).all fun b => b != '>') = true
  simp only [List.all_append, Bool.and_eq_true]
  refine ⟨⟨⟨?_, all_digit_noGt _ hdig⟩, ?_⟩, ?_⟩
  · rcases hsig with hs | hs <;> subst hs <;> decide
  · rcases hfrac with hf | ⟨fd, hf1, hf2⟩
    · subst hf; rfl
    · subst hf1
      simp only [List.all_cons, Bool.and_eq_true]
      exact ⟨by decide, all_digit_noGt _ hf2⟩
  · rcases hex with hx | ⟨e, sg, ed, hx1, hx2, hx3, hx4⟩
    · subst hx; rfl
    · subst hx1
      simp only [List.all_cons, List.all_append, Bool.and_eq_true]
      refine ⟨?_, ?_, all_digit_noGt _ hx4⟩
      · rcases hx2 with he | he <;> subst he <;> decide
      · rcases hx3 with hs | hs | hs <;> subst hs <;> decide

theorem pushColored_safe (text : String) (color : String)
    (hcolor : (color.data.all fun b => b != '>') = true)
    (ht : gtSafe text.data = true) (hh : headOk text.data = true) :
    gtSafe (pushColored text color).data = true ∧
      headOk (pushColored text color).data = true := by
  have hpc : ((("<span style=\"color:" : String).data ++ color.data).all
      fun b => b != '>') = true := by
    simp only [List.all_append, Bool.and_eq_true]
    exact ⟨by decide, hcolor⟩
  obtain ⟨hg1, hh1⟩ := gtSafe_of_noGt _ hpc
  have hg2 : gtSafe ((("<span style=\"color:" : String).data ++ color.data)
      ++ ("\">" : String).data) = true :=
    gtSafe_append _ _ hg1 (by decide) (by decide)
  have hh2 : headOk ((("<span style=\"color:" : String).data ++ color.data)
      ++ ("\">" : String).data) = true :=
    headOk_append _ _ hh1 (by decide)
  have hg3 := gtSafe_append _ _ hg2 ht hh
  have hh3 := headOk_append _ _ hh2 hh
  constructor
  · show gtSafe (pushColored text color).data = true
    unfold pushColored
    simp only [String.data_append]
    exact gtSafe_append _ _ hg3 (by decide) (by decide)
  · show headOk (pushColored text color).data = true
    unfold pushColored
    simp only [String.data_append]
    exact headOk_append _ _ hh3 (by decide)

theorem pushEscaped_safe (c : Char) :
    gtSafe (pushEscaped c).data = true ∧ headOk (pushEscaped c).data = true := by
  unfold pushEscaped
  split_ifs with h1 h2 h3
  · exact ⟨by decide, by decide⟩
  · exact ⟨by decide, by decide⟩
  · exact ⟨by decide, by decide⟩
  · refine ⟨rfl, ?_⟩
    have hc : c ≠ '>' := fun he => h2 (by simp [he])
    show (([c] : List Char).head? != some '>') = true
    simpa [bne_iff_ne] using hc

theorem hlStep_safe (alnum : Char → Bool) (cs : List Char) (ek : Bool)
    (st : List Char) :
    gtSafe (hlStep alnum cs ek st).out.data = true ∧
      headOk (hlStep alnum cs ek st).out.data = true := by
  cases cs with
  | nil => exact ⟨rfl, rfl⟩
  | cons c rest =>
      simp only [hlStep]
      by_cases h1 : isWsChar c = true
      · rw [if_pos h1]
        have hws := h1
        simp only [isWsChar, Bool.or_eq_true, beq_iff_eq] at hws
        rcases hws with ((hc | hc) | hc) | hc <;> subst hc <;> exact ⟨rfl, rfl⟩
      · rw [if_neg h1]
        by_cases h2 : (c == lbrace) = true
        · rw [if_pos h2]
          exact ⟨of_decide_eq_true rfl, of_decide_eq_true rfl⟩
        · rw [if_neg h2]
          by_cases h3 : (c == rbrace) = true
          · rw [if_pos h3]
            exact ⟨of_decide_eq_true rfl, of_decide_eq_true rfl⟩
          · rw [if_neg h3]
            by_cases h4 : (c == '[') = true
            · rw [if_pos h4]
              exact ⟨of_decide_eq_true rfl, of_decide_eq_true rfl⟩
            · rw [if_neg h4]
              by_cases h5 : (c == ']') = true
              · rw [if_pos h5]
                exact ⟨of_decide_eq_true rfl, of_decide_eq_true rfl⟩
              · rw [if_neg h5]
                by_cases h6 : (c == ':') = true
                · rw [if_pos h6]
                  exact ⟨of_decide_eq_true rfl, of_decide_eq_true rfl⟩
                · rw [if_neg h6]
                  by_cases h7 : (c == ',') = true
                  · rw [if_pos h7]
                    exact ⟨of_decide_eq_true rfl, of_decide_eq_true rfl⟩
                  · rw [if_neg h7]
                    by_cases h8 : (c == '"') = true
                    · rw [if_pos h8]
                      obtain ⟨hps1, hps2⟩ :=
                        parseStringAux_safe rest "\"" (by decide) (by decide)
                      cases ek
                      · simpa using pushColored_safe (parseString rest).1
                          colors.STRING (by decide) hps1 hps2
                      · simpa using pushColored_safe (parseString rest).1
                          colors.KEY (by decide) hps1 hps2
                    · rw [if_neg h8]
                      by_cases h9 : isNumStart c = true
                      · rw [if_pos h9]
                        simp only [isNumStart, Bool.or_eq_true, beq_iff_eq] at h9
                        have hno := parseNumber_noGt c rest h9
                        obtain ⟨hg, hh⟩ := gtSafe_of_noGt _ hno
                        exact pushColored_safe _ colors.NUMBER (by decide) hg hh
                      · rw [if_neg h9]
                        by_cases h10 : (c == 't' && matchesKeyword alnum (c :: rest) ("true")) = true
                        · rw [if_pos h10]
                          exact ⟨of_decide_eq_true rfl, of_decide_eq_true rfl⟩
                        · rw [if_neg h10]
                          by_cases h11 : (c == 'f' && matchesKeyword alnum (c :: rest) ("false")) = true
                          · rw [if_pos h11]
                            exact ⟨of_decide_eq_true rfl, of_decide_eq_true rfl⟩
                          · rw [if_neg h11]
                            by_cases h12 : (c == 'n' && matchesKeyword alnum (c :: rest) ("null")) = true
                            · rw [if_pos h12]
                              exact ⟨of_decide_eq_true rfl, of_decide_eq_true rfl⟩
                            · rw [if_neg h12]
                              exact pushEscaped_safe c

theorem hlLoop_safe :
    ∀ (alnum : Char → Bool) (n : Nat) (cs : List Char) (ek : Bool)
      (st : List Char),
      gtSafe (hlLoop alnum n cs ek st).data = true ∧
        headOk (hlLoop alnum n cs ek st).data = true := by
  intro alnum n
  induction n with
  | zero => intro cs ek st; cases cs <;> exact ⟨rfl, rfl⟩
  | succ n ih =>
      intro cs ek st
      cases cs with
      | nil => exact ⟨rfl, rfl⟩
      | cons c rest =>
          simp only [hlLoop, String.data_append]
          obtain ⟨hs1, hs2⟩ := hlStep_safe alnum (c :: rest) ek st
          obtain ⟨hl1, hl2⟩ := ih (hlStep alnum (c :: rest) ek st).rest
            (hlStep alnum (c :: rest) ek st).ek (hlStep alnum (c :: rest) ek st).stack
          exact ⟨gtSafe_append _ _ hs1 hl1 hl2, headOk_append _ _ hs2 hl2⟩

theorem highlightJson_safe (alnum : Char → Bool) (s : String) :
    gtSafe (highlightJson alnum s).data = true := by
  rw [highlightJson]
  split_ifs with h
  · rfl
  · simp only [String.data_append]
    obtain ⟨hl1, hl2⟩ := hlLoop_safe alnum s.data.length s.data false []
    refine gtSafe_append _ _ ?_ (by decide) (by decide)
    exact gtSafe_append _ _ (by decide) hl1 hl2

theorem gtSafe_no_t_gt :
    ∀ (pre l post : List Char), gtSafe l = true →
      l = pre ++ 't' :: '>' :: post → False := by
  intro pre
  induction pre with
  | nil =>
      intro l post hl he
      subst he
      simp [gtSafe, gtOkPair] at hl
  | cons x pre ih =>
      intro l post hl he
      subst he
      simp only [List.cons_append] at hl
      exact ih _ post (gtSafe_cons _ _ hl) rfl

/-- Claim C9 counterexample: for the valid-looking input whose string
token contains a backslash right before the script tag, the tag's opening
angle bracket of the input is copied to the output verbatim (it follows a
backslash inside a string token) instead of being substituted with its
named character reference, so the claim that the three HTML-sensitive
characters of the input are always substituted fails. -/
theorem c9_counterexample :
    decide (("<script>").data <:+: ("\"\\<script>\"").data) = true ∧
    (∀ alnum : Char → Bool,
      decide (['\\', '<']
        <:+: (highlightJson alnum ("\"\\<script>\"")).data) = true ∧
      decide (("&lt;script").data
        <:+: (highlightJson alnum ("\"\\<script>\"")).data) = false) :=
  ⟨by decide, fun alnum => ⟨rfl, rfl⟩⟩

/-- Claim C9 (amended): the output of highlight_json never contains the
literal substring of a script opening tag, for any input and for every
keyword-boundary predicate (hence for the program's).  Every raw
greater-than sign in the output is preceded by a quote, an n, an e or a
backslash, never by a t, even though a character following a backslash
inside a string token is copied verbatim. -/
theorem c9_no_script_tag (alnum : Char → Bool) (s : String) :
    decide (['<', 's', 'c', 'r', 'i', 'p', 't', '>']
      <:+: (highlightJson alnum s).data) = false := by
  rw [decide_eq_false_iff_not]
  rintro ⟨p, q, hpq⟩
  apply gtSafe_no_t_gt (p ++ ['<', 's', 'c', 'r', 'i', 'p'])
    (highlightJson alnum s).data q (highlightJson_safe alnum s)
  rw [← hpq]
  simp

/-- Claim C10: inside a string token the character immediately following
a backslash is copied verbatim as part of a two-character unit, bypassing
the HTML substitution; concretely, highlighting the four-character input
of a quoted backslash-less-than pair leaves a raw less-than sign in the
output and no named character reference. -/
theorem c10_backslash_bypass :
    (∀ (d : Char) (rest : List Char) (acc : String),
      parseStringAux ('\\' :: d :: rest) acc
        = parseStringAux rest ((acc.push '\\').push d)) ∧
    (∀ alnum : Char → Bool,
      decide (['\\', '<'] <:+: (highlightJson alnum ("\"\\<\"")).data) = true ∧
      decide (("&lt;").data <:+: (highlightJson alnum ("\"\\<\"")).data) = false) :=
  ⟨fun d rest acc => rfl, fun alnum => ⟨rfl, rfl⟩⟩

/-! ### Claim theorems: formatter, minifier, validator -/

/-- Claim C1: canonical formatting emits the keys of every parsed Object
in strictly ascending code-point lexicographic order, regardless of the
order the keys appeared in the input text.  The first part states that
the map the parser builds has strictly sorted keys whatever the insertion
order; the second part checks the spec's own example end to end on the
formatter, whose object loop emits the entries in map order. -/
theorem c1_sorted_object_keys :
    (∀ ps : List (String × Value),
      ((mkObject ps).map Prod.fst).Pairwise (fun a b => strLtb a b = true)) ∧
    formatJsonValue
        (.obj (mkObject [("name", .str ("John")), ("age", .num ("30"))]))
        (.spaces 2)
      = "\x7b\n  \"age\": 30,\n  \"name\": \"John\"\n\x7d" := by
  constructor
  · intro ps
    exact List.pairwise_map.mpr (pairwise_mkObject ps)
  · decide

/-- Claim C2 (code bug): format_value emits object keys verbatim, without
the escaping it applies to string values.  For the valid input text with
the single key `a"b` the formatted output contains an unescaped interior
quote inside the key and is not valid JSON, so re-formatting the output
fails instead of reproducing it; the same content as a string value is
escaped correctly. -/
theorem c2_unescaped_key_eval :
    formatJsonValue (.obj [("a\"b", .num ("1"))]) (.spaces 2)
      = "\x7b\n  \"a\"b\": 1\n\x7d" ∧
    formatJsonValue (.str ("a\"b")) (.spaces 2) = "\"a\\\"b\"" := by
  decide

/-- Claim C5 counterexample: the delete character 0x7F has a code point
at or above 0x20, yet format_value escapes it (Rust's char::is_control
also covers 0x7F through 0x9F), so it does not pass through unescaped as
the claim states. -/
theorem c5_counterexample :
    formatValue (.str (String.singleton (Char.ofNat 0x7f))) ("  ") 0
      = "\"\\u007f\"" ∧
    ((formatValue (.str (String.singleton (Char.ofNat 0x7f))) ("  ") 0
        == "\"" ++ String.singleton (Char.ofNat 0x7f) ++ "\"") = false) ∧
    0x20 ≤ (Char.ofNat 0x7f).toNat := by
  decide

/-- Claim C5 (amended): a rendered String value is the quoted
concatenation of per-character escapes where quote, backslash, newline,
carriage return and tab take their two-character forms, every other
character below 0x20 or in 0x7F-0x9F takes a lowercase four-digit
`\uXXXX` escape, and every remaining character (including all other
non-ASCII characters) passes through unescaped. -/
theorem c5_string_escaping_amended (indentStr : String) (depth : Nat)
    (s : String) :
    formatValue (.str s) indentStr depth
      = "\"" ++ concatMapStr escapeCharSpec s.data ++ "\"" := by
  simp only [formatValue]
  rw [escapeString_eq, concatMapStr_congr escapeChar escapeCharSpec escapeChar_eq_spec]

/-- Claim C6 counterexample: on a string containing the backspace
character, minify_json (serde_json's serializer) emits the short escape
while the formatter's rules emit the four-digit escape, so minification
is not the formatter's rendering with whitespace removed. -/
theorem c6_counterexample :
    minifyRender (.arr [.str (String.singleton (Char.ofNat 8))]) = "[\"\\b\"]" ∧
    compactRender (.arr [.str (String.singleton (Char.ofNat 8))]) = "[\"\\u0008\"]" ∧
    ((minifyRender (.arr [.str (String.singleton (Char.ofNat 8))])
        == compactRender (.arr [.str (String.singleton (Char.ofNat 8))])) = false) := by
  decide

/-- Claim C6 (amended): minify_json coincides with the formatter's
whitespace-free rendering (same sorted key order, comma and colon with no
surrounding space) on every tree whose strings avoid the code points
where the two escapings differ (0x08, 0x0C, 0x7F-0x9F) and whose object
keys contain no character that string escaping would alter. -/
theorem c6_minify_amended (v : Value) (h : niceValue v = true) :
    minifyRender v = compactRender v :=
  minify_eq_compact v h

/-- Witness for the amended claim C6 at a concrete tree. -/
theorem c6_minify_amended_witness :
    niceValue (.obj [("a", .num ("1")), ("b", .str ("x"))]) = true ∧
    minifyRender (.obj [("a", .num ("1")), ("b", .str ("x"))])
      = compactRender (.obj [("a", .num ("1")), ("b", .str ("x"))]) :=
  ⟨by decide, c6_minify_amended _ (by decide)⟩

/-- Claim C8: the six per-kind counters collected by validate_json add up
to the total number of Value nodes of the parsed tree. -/
theorem c8_count_conservation :
    ∀ v : Value, sumCounts (validateStats v) = nodeCount v := by
  intro v
  have h := collectStats_sum v 0 defaultStats
  simpa [validateStats, defaultStats, sumCounts] using h

end AirgapFormatter
